import Mathlib

/-!
Verification of the expendo repository's segmentation and trend-regression
core (`source/segmentation.py`, `source/prediction.py`, `source/postprocess.py`)
against its natural-language specification.

Modelling conventions:
* Python floats are modelled as exact rationals (`ℚ`); the literal `1e-10`
  becomes `1 / 10 ^ 10`.
* Python lists become `List ℚ`; reads `y[idx]` become `y.getD idx 0`
  (every claim only exercises in-range reads).
* The `while` loops of `bottom_up_segmentation` are embedded with an explicit
  fuel argument.  Both loops advance by at least one unit of progress per
  iteration (the init loop moves `i` forward, the merge loop removes one
  segment), so fuel `y.length` resp. `segments.length` is sufficient; the
  theorems carry the corresponding fuel hypotheses.
* Python exceptions are modelled with `Except`; each distinct raise site gets
  its own error constructor.
-/

namespace Expendo

/-- The tolerance `1e-10` used by `segmentation.py`. -/
def eps : ℚ := 1 / 10 ^ 10

/-- Aggregate statistics tuple `(n, sum_x, sum_y, sum_xy, sum_x2, sum_y2)`
from `segmentation.py`. -/
structure Stats where
  n : ℕ
  sx : ℚ
  sy : ℚ
  sxy : ℚ
  sx2 : ℚ
  sy2 : ℚ
  deriving DecidableEq, Repr

/-- Element-wise sum of two aggregate statistics tuples, as in the
`merged_stats` construction of `bottom_up_segmentation`. -/
def addStats (s t : Stats) : Stats :=
  ⟨s.n + t.n, s.sx + t.sx, s.sy + t.sy, s.sxy + t.sxy, s.sx2 + t.sx2, s.sy2 + t.sy2⟩

/-- The all-zero statistics tuple. -/
def zeroStats : Stats := ⟨0, 0, 0, 0, 0, 0⟩

/-- One iteration of the statistics-accumulation loop of
`bottom_up_segmentation` step 1: add the point `(idx, y[idx])` to the sums
(the count `n` is not accumulated by that loop; it is set directly). -/
def addPoint (y : List ℚ) (st : Stats) (idx : ℕ) : Stats :=
  { st with
    sx := st.sx + (idx : ℚ)
    sy := st.sy + y.getD idx 0
    sxy := st.sxy + (idx : ℚ) * y.getD idx 0
    sx2 := st.sx2 + (idx : ℚ) * (idx : ℚ)
    sy2 := st.sy2 + y.getD idx 0 * y.getD idx 0 }

/-- Aggregate statistics of `y` over the inclusive index range `[i, j]`:
the `for idx in range(i, j + 1)` loop of `bottom_up_segmentation` step 1,
with `n` set to `j - i + 1` as in the source. -/
def rangeStats (y : List ℚ) (i j : ℕ) : Stats :=
  (List.range' i (j + 1 - i)).foldl (addPoint y) ⟨j + 1 - i, 0, 0, 0, 0, 0⟩

/-- `_compute_ab` from `segmentation.py`: slope and intercept from an
aggregate statistics tuple, with the degenerate-determinant fallback. -/
def _compute_ab (st : Stats) : ℚ × ℚ :=
  let denominator := (st.n : ℚ) * st.sx2 - st.sx * st.sx
  if |denominator| < eps then
    (0, st.sy / (st.n : ℚ))
  else
    let a := ((st.n : ℚ) * st.sxy - st.sx * st.sy) / denominator
    (a, (st.sy - a * st.sx) / (st.n : ℚ))

/-- `_compute_linreg` from `segmentation.py`: `(ssr, a, b)` from an aggregate
statistics tuple. -/
def _compute_linreg (st : Stats) : ℚ × ℚ × ℚ :=
  if st.n ≤ 1 then (0, 0, 0)
  else
    let ab := _compute_ab st
    (max 0 (st.sy2 - ab.1 * st.sxy - ab.2 * st.sy), ab.1, ab.2)

/-- A working segment of `bottom_up_segmentation`: the dict
`{'start', 'end', 'stats', 'ssr'}` (the Python key `end` is named `stop`
here because `end` is a Lean keyword). -/
structure Seg where
  start : ℕ
  stop : ℕ
  stats : Stats
  ssr : ℚ
  deriving DecidableEq, Repr

/-- Build the initial segment over `[i, j]` (step 1 of
`bottom_up_segmentation`). -/
def mkInitSeg (y : List ℚ) (i j : ℕ) : Seg :=
  let stats := rangeStats y i j
  { start := i, stop := j, stats := stats, ssr := (_compute_linreg stats).1 }

/-- The `while i < n` initialization loop of `bottom_up_segmentation`,
with fuel.  Each iteration emits the chunk `[i, min(i + L - 1, n - 1)]`
and continues past it.  (For `min_length = 0` the Python loop would not
terminate; with fuel the function totalizes, and every claim assumes
`min_length ≥ 1`.) -/
def initLoopF (y : List ℚ) (min_length : ℕ) : ℕ → ℕ → List Seg
  | 0, _ => []
  | fuel + 1, i =>
    if i < y.length then
      let j := min (i + min_length - 1) (y.length - 1)
      mkInitSeg y i j :: initLoopF y min_length fuel (j + 1)
    else []

/-- Step 1 of `bottom_up_segmentation`: the initial minimum-length partition. -/
def initSegments (y : List ℚ) (min_length : ℕ) : List Seg :=
  initLoopF y min_length y.length 0

/-- The merged segment built for an adjacent pair in step 2 of
`bottom_up_segmentation`: element-wise summed stats and their SSR. -/
def mergeSeg (s1 s2 : Seg) : Seg :=
  let merged_stats := addStats s1.stats s2.stats
  { start := s1.start, stop := s2.stop, stats := merged_stats,
    ssr := (_compute_linreg merged_stats).1 }

/-- `delta_cost` of an adjacent pair in step 2 of `bottom_up_segmentation`:
`merged_ssr - (s1.ssr + s2.ssr) - lam`. -/
def deltaCost (lam : ℚ) (s1 s2 : Seg) : ℚ :=
  (_compute_linreg (addStats s1.stats s2.stats)).1 - (s1.ssr + s2.ssr) - lam

/-- The `for i in range(n_seg - 1)` scan of step 2: fold over adjacent pairs,
tracking `(best_delta_cost, best_idx, best_merged)`.  `none` plays the role
of the initial `float('inf')` (any finite delta cost beats it). -/
def findBestAux (lam : ℚ) : Option (ℚ × ℕ × Seg) → ℕ → List Seg → Option (ℚ × ℕ × Seg)
  | best, _, [] => best
  | best, _, [_] => best
  | best, i, s1 :: s2 :: rest =>
    let dc := deltaCost lam s1 s2
    let best' := match best with
      | none => some (dc, i, mergeSeg s1 s2)
      | some b => if dc < b.1 then some (dc, i, mergeSeg s1 s2) else best
    findBestAux lam best' (i + 1) (s2 :: rest)

/-- One full scan over all adjacent pairs of the current segment list;
`none` exactly when fewer than 2 segments remain. -/
def findBest (lam : ℚ) (segs : List Seg) : Option (ℚ × ℕ × Seg) :=
  findBestAux lam none 0 segs

/-- `del segments[i:i+2]; segments.insert(i, merged)`. -/
def mergeAt (idx : ℕ) (m : Seg) (segs : List Seg) : List Seg :=
  segs.take idx ++ m :: segs.drop (idx + 2)

/-- The `while changed` merge loop of step 2, with fuel: scan, and merge the
best pair exactly when its delta cost is negative, else stop. -/
def mergeLoopF (lam : ℚ) : ℕ → List Seg → List Seg
  | 0, segs => segs
  | fuel + 1, segs =>
    match findBest lam segs with
    | none => segs
    | some (dc, idx, m) =>
      if dc < 0 then mergeLoopF lam fuel (mergeAt idx m segs) else segs

/-- Final segment record of `bottom_up_segmentation` (step 3).  The Python
dict keys `'x1','x2','a','b','y1','y2','d0','lambda'` become fields
(`lambda` is a reserved word, hence `lam`). -/
structure FinalSeg where
  x1 : ℕ
  x2 : ℕ
  a : ℚ
  b : ℚ
  y1 : ℚ
  y2 : ℚ
  d0 : ℚ
  lam : ℚ
  deriving DecidableEq, Repr

/-- Step 3 of `bottom_up_segmentation`: recompute `(a, b)` and emit the
final record. -/
def finalSeg (lam : ℚ) (s : Seg) : FinalSeg :=
  let ab := _compute_ab s.stats
  { x1 := s.start, x2 := s.stop, a := ab.1, b := ab.2,
    y1 := ab.1 * (s.start : ℚ) + ab.2,
    y2 := ab.1 * (s.stop : ℚ) + ab.2,
    d0 := if eps < |ab.1| then -ab.2 / ab.1 else -1,
    lam := lam }

/-- `bottom_up_segmentation` from `segmentation.py`.  The merge loop gets
fuel equal to the initial segment count (each merge removes a segment, so
the Python loop iterates at most that many times). -/
def bottom_up_segmentation (y : List ℚ) (min_length : ℕ) (lam : ℚ) : List FinalSeg :=
  let segments := initSegments y min_length
  (mergeLoopF lam segments.length segments).map (finalSeg lam)

/-- `_estimate_variance` from `segmentation.py`: sample variance
(denominator `n - 1`). -/
def _estimate_variance (data : List ℚ) : ℚ :=
  let n := data.length
  if n ≤ 1 then 0
  else
    let mean := data.sum / (n : ℚ)
    (data.map (fun x => (x - mean) * (x - mean))).sum / ((n : ℚ) - 1)

/-- `_moving_average` from `segmentation.py`.  The slice
`data[start:end]` becomes `(data.drop start).take (end - start)`, and
`max(0, i - window_size // 2)` is natural-number subtraction. -/
def _moving_average (data : List ℚ) (window_size : ℕ) : List ℚ :=
  let n := data.length
  if window_size ≤ 1 ∨ n ≤ window_size then data
  else
    (List.range n).map (fun i =>
      let s := i - window_size / 2
      let e := min n (i + window_size / 2 + 1)
      let window := (data.drop s).take (e - s)
      window.sum / (window.length : ℚ))

/-- The three accepted `method` strings of `_estimate_noise_variance`
(`'residuals'`, `'differences'`, `'residuals_smooth'`); any other string
raises `ValueError` in Python, which the closed inductive renders
unrepresentable. -/
inductive VMethod where
  | residuals
  | differences
  | residuals_smooth
  deriving DecidableEq, Repr

/-- `_estimate_noise_variance` from `segmentation.py`.  Note the early
`return 0.0` for `n <= 1`, which bypasses the final
`max(variance, 1e-10)` floor. -/
def _estimate_noise_variance (y : List ℚ) (method : VMethod) : ℚ :=
  let n := y.length
  if n ≤ 1 then 0
  else
    let variance :=
      match method with
      | .residuals =>
        let x := List.range n
        let sum_x : ℚ := (x.map (fun i => (i : ℚ))).sum
        let sum_y := y.sum
        let sum_xy := ((x.zip y).map (fun p => (p.1 : ℚ) * p.2)).sum
        let sum_x2 := (x.map (fun i => (i : ℚ) * (i : ℚ))).sum
        let ab := _compute_ab ⟨n, sum_x, sum_y, sum_xy, sum_x2, 0⟩
        let residuals := (x.zip y).map (fun p => p.2 - (ab.1 * (p.1 : ℚ) + ab.2))
        _estimate_variance residuals
      | .differences =>
        let differences := (List.range' 1 (n - 1)).map (fun i => y.getD i 0 - y.getD (i - 1) 0)
        _estimate_variance differences / 2
      | .residuals_smooth =>
        let ws0 := max 3 (min 10 (n / 10))
        let window_size := if ws0 % 2 = 0 then ws0 + 1 else ws0
        let smoothed := _moving_average y window_size
        let residuals := (y.zip smoothed).map (fun p => p.1 - p.2)
        _estimate_variance residuals
    max variance eps

/-- `calculate_lambda` from `segmentation.py`. -/
def calculate_lambda (y : List ℚ) (c : ℚ) (method : VMethod) : ℚ :=
  c * _estimate_noise_variance y method

/-! ## Trend projector (`prediction.py` / `postprocess.py`)

The two copies of `trends` are line-for-line identical; one embedding covers
both.  The input `d` is a Python `dict {date: {row_name: value}}`: insertion
ordered with unique date keys, modelled as an ordered association list whose
inner dicts carry their key list and a total value function (`d[date][row]`
for a `row` absent from a non-first inner dict would raise `KeyError` in
Python; no claim exercises that path).  Dates are day numbers (`ℕ`); the
`start` parameter's `start.date()` is the optional `ℕ`.  Each distinct raise
site of `trends` gets its own `TErr` constructor, including Python's
`StopIteration` on an empty dict, `ZeroDivisionError` inside `linreg`, and
`IndexError` on `dates[0]`. -/

/-- Errors of the trend projector. -/
inductive TErr where
  /-- `next(iter(d))` on an empty dict raises `StopIteration`. -/
  | emptyTable
  /-- `'"{row}" not present in data.'` -/
  | rowAbsent
  /-- `'Not enough data for prediction (at least 7 days retro required).'` -/
  | notEnoughData
  /-- `ZeroDivisionError` from `linreg` when `det == 0`. -/
  | divByZero
  /-- `IndexError` from `dates[0]` on an empty filtered range. -/
  | emptyDates
  deriving DecidableEq, Repr

/-- One inner dict `{row_name: value}`: its key list plus a total lookup. -/
structure RowMap where
  keys : List String
  val : String → ℚ

/-- The date-indexed table `{date: {row_name: value}}`. -/
def Table := List (ℕ × RowMap)

/-- `linreg` from `prediction.py`/`postprocess.py`: accumulate
`Sx, Sy, Sxx, Syy, Sxy` over `zip(X, Y)` and solve; `det == 0` is Python's
`ZeroDivisionError`. -/
def linreg (X Y : List ℚ) : Except TErr (ℚ × ℚ) :=
  let N : ℚ := (X.length : ℚ)
  let p := (X.zip Y).foldl
    (fun (acc : ℚ × ℚ × ℚ × ℚ × ℚ) xy =>
      (acc.1 + xy.1, acc.2.1 + xy.2, acc.2.2.1 + xy.1 * xy.1,
       acc.2.2.2.1 + xy.2 * xy.2, acc.2.2.2.2 + xy.1 * xy.2))
    (0, 0, 0, 0, 0)
  let det := p.2.2.1 * N - p.1 * p.1
  if det = 0 then .error .divByZero
  else .ok ((p.2.2.2.2 * N - p.2.1 * p.1) / det, (p.2.2.1 * p.2.1 - p.1 * p.2.2.2.2) / det)

/-- The date-filter predicate of `trends`:
`start is None or not (date < start.date())`. -/
def keepDate (start : Option ℕ) (date : ℕ) : Bool :=
  match start with
  | none => true
  | some s => !(date < s)

/-- The entries of `d` surviving the start filter.  (`trends` builds the
filtered key list and then indexes `d` by each key; with unique dict keys
that is the same as filtering the entries.) -/
def filteredEntries (d : Table) (start : Option ℕ) : List (ℕ × RowMap) :=
  d.filter (fun e => keepDate start e.1)

/-- `midval` of `trends`: the mid line sampled at indices `0..n-1`. -/
def midvalOf (midc : ℚ × ℚ) (n : ℕ) : List ℚ :=
  (List.range n).map (fun i => midc.1 * (i : ℚ) + midc.2)

/-- `maxval` of `trends`: `(index, value)` for values strictly above the mid
line. -/
def aboveOf (original : List ℚ) (midc : ℚ × ℚ) : List (ℚ × ℚ) :=
  (((midvalOf midc original.length).zip original).enum.filter
    (fun p => p.2.1 < p.2.2)).map (fun p => ((p.1 : ℚ), p.2.2))

/-- `minval` of `trends`: `(index, value)` for values strictly below the mid
line. -/
def belowOf (original : List ℚ) (midc : ℚ × ℚ) : List (ℚ × ℚ) :=
  (((midvalOf midc original.length).zip original).enum.filter
    (fun p => p.2.2 < p.2.1)).map (fun p => ((p.1 : ℚ), p.2.2))

/-- The regression part of `trends` on the filtered value row: returns
`(midc, maxc, minc)`.  `maxc`/`minc` fall back to `midc` when at most one
point lies strictly above/below the mid line. -/
def trendsBody (original : List ℚ) : Except TErr ((ℚ × ℚ) × (ℚ × ℚ) × (ℚ × ℚ)) :=
  match linreg ((List.range original.length).map (fun i => (i : ℚ))) original with
  | .error e => .error e
  | .ok midc =>
    let maxval := aboveOf original midc
    match (if 1 < maxval.length then linreg (maxval.map Prod.fst) (maxval.map Prod.snd)
           else .ok midc) with
    | .error e => .error e
    | .ok maxc =>
      let minval := belowOf original midc
      match (if 1 < minval.length then linreg (minval.map Prod.fst) (minval.map Prod.snd)
             else .ok midc) with
      | .error e => .error e
      | .ok minc => .ok (midc, maxc, minc)

/-- Result dict of `trends`.  The Python keys `'min'`/`'max'` are the fields
`lo`/`hi` (`min`/`max` would shadow the lattice operations). -/
structure TrendsOut where
  name : String
  startDate : ℕ
  endDate : ℕ
  mid : ℚ × ℚ
  lo : ℚ × ℚ
  hi : ℚ × ℚ

/-- `trends` from `prediction.py`/`postprocess.py`. -/
def trends (d : Table) (row : String) (start : Option ℕ) : Except TErr TrendsOut :=
  match d with
  | [] => .error .emptyTable
  | first :: _ =>
    if row ∉ first.2.keys then .error .rowAbsent
    else if d.length < 7 then .error .notEnoughData
    else
      let dates := (filteredEntries d start).map Prod.fst
      let original := (filteredEntries d start).map (fun e => e.2.val row)
      match trendsBody original with
      | .error e => .error e
      | .ok (midc, maxc, minc) =>
        match dates with
        | [] => .error .emptyDates
        | d0 :: drest =>
          .ok { name := row
                startDate := d0
                endDate := (d0 :: drest).getLast (List.cons_ne_nil d0 drest)
                mid := (min midc.1 (-(1 / 1000)), midc.2)
                lo := (min (min midc.1 minc.1) (-(1 / 1000)), minc.2)
                hi := (min (-(1 / 1000)) (max midc.1 maxc.1), maxc.2) }

/-! ## Specification predicates -/

/-- `ChainFrom i segs m`: the segments tile the index range `[i, m - 1]`
contiguously in order — each segment starts where announced and hands over
at `stop + 1`, and the final hand-over point is `m`. -/
def ChainFrom : ℕ → List Seg → ℕ → Prop
  | i, [], m => i = m
  | i, s :: rest, m => s.start = i ∧ ChainFrom (s.stop + 1) rest m

/-- A working segment whose cached statistics and SSR are the ones of its
index range. -/
def GoodSeg (y : List ℚ) (s : Seg) : Prop :=
  s.start ≤ s.stop ∧ s.stats = rangeStats y s.start s.stop ∧
    s.ssr = (_compute_linreg s.stats).1

/-- `findBest` candidates shifted by a penalty change (used to relate runs
with different `lam`). -/
def shiftB (lam : ℚ) : Option (ℚ × ℕ × Seg) → Option (ℚ × ℕ × Seg) :=
  Option.map (fun b => (b.1 - lam, b.2))

/-! ## Aggregate-statistics algebra -/

theorem addStats_zeroStats (s : Stats) : addStats s zeroStats = s := by
  simp [addStats, zeroStats]

theorem addPoint_addStats (y : List ℚ) (s t : Stats) (a : ℕ) :
    addPoint y (addStats s t) a = addStats s (addPoint y t a) := by
  simp [addPoint, addStats, add_assoc]

theorem foldl_addPoint_addStats (y : List ℚ) (l : List ℕ) (s t : Stats) :
    l.foldl (addPoint y) (addStats s t) = addStats s (l.foldl (addPoint y) t) := by
  induction l generalizing t with
  | nil => rfl
  | cons a l ih => simp only [List.foldl_cons, addPoint_addStats, ih]

theorem foldl_addPoint_eq (y : List ℚ) (l : List ℕ) (s : Stats) :
    l.foldl (addPoint y) s = addStats s (l.foldl (addPoint y) zeroStats) := by
  conv_lhs => rw [← addStats_zeroStats s]
  exact foldl_addPoint_addStats y l s zeroStats

theorem addPoint_n (y : List ℚ) (s : Stats) (a : ℕ) : (addPoint y s a).n = s.n := rfl

theorem foldl_addPoint_n (y : List ℚ) (l : List ℕ) (s : Stats) :
    (l.foldl (addPoint y) s).n = s.n := by
  induction l generalizing s with
  | nil => rfl
  | cons a l ih => simp only [List.foldl_cons, ih, addPoint_n]

theorem rangeStats_n (y : List ℚ) (i j : ℕ) : (rangeStats y i j).n = j + 1 - i := by
  simp only [rangeStats, foldl_addPoint_n]

/-- Splitting an index range at `k` splits its aggregate statistics tuple
additively. -/
theorem rangeStats_split (y : List ℚ) (i k j : ℕ) (h1 : i ≤ k + 1) (h2 : k ≤ j) :
    addStats (rangeStats y i k) (rangeStats y (k + 1) j) = rangeStats y i j := by
  have hAB : List.range' i (k + 1 - i) ++ List.range' (k + 1) (j + 1 - (k + 1)) =
      List.range' i (j + 1 - i) := by
    have h := List.range'_append i (k + 1 - i) (j + 1 - (k + 1)) 1
    rw [show i + 1 * (k + 1 - i) = k + 1 by omega] at h
    rw [h]
    congr 1
    omega
  have eA : rangeStats y i k =
      addStats ⟨k + 1 - i, 0, 0, 0, 0, 0⟩
        ((List.range' i (k + 1 - i)).foldl (addPoint y) zeroStats) :=
    foldl_addPoint_eq y (List.range' i (k + 1 - i)) ⟨k + 1 - i, 0, 0, 0, 0, 0⟩
  have eB : rangeStats y (k + 1) j =
      addStats ⟨j + 1 - (k + 1), 0, 0, 0, 0, 0⟩
        ((List.range' (k + 1) (j + 1 - (k + 1))).foldl (addPoint y) zeroStats) :=
    foldl_addPoint_eq y (List.range' (k + 1) (j + 1 - (k + 1))) ⟨j + 1 - (k + 1), 0, 0, 0, 0, 0⟩
  have eJ : rangeStats y i j =
      addStats ⟨j + 1 - i, 0, 0, 0, 0, 0⟩
        (addStats ((List.range' i (k + 1 - i)).foldl (addPoint y) zeroStats)
          ((List.range' (k + 1) (j + 1 - (k + 1))).foldl (addPoint y) zeroStats)) := by
    show (List.range' i (j + 1 - i)).foldl (addPoint y) ⟨j + 1 - i, 0, 0, 0, 0, 0⟩ = _
    rw [← hAB, List.foldl_append, foldl_addPoint_eq y (List.range' i (k + 1 - i)),
      foldl_addPoint_addStats, foldl_addPoint_eq y (List.range' (k + 1) (j + 1 - (k + 1)))]
  rw [eA, eB, eJ]
  simp only [addStats, zeroStats, Stats.mk.injEq]
  refine ⟨by omega, by ring, by ring, by ring, by ring, by ring⟩

/-! ## The initial partition -/

theorem initLoopF_nil (y : List ℚ) (L : ℕ) :
    ∀ fuel i, y.length ≤ i → initLoopF y L fuel i = [] := by
  intro fuel i h
  cases fuel with
  | zero => rfl
  | succ fuel => simp only [initLoopF, if_neg (by omega : ¬ i < y.length)]

theorem initLoopF_chain (y : List ℚ) (L : ℕ) (hL : 1 ≤ L) :
    ∀ fuel i, y.length - i ≤ fuel → i ≤ y.length →
      ChainFrom i (initLoopF y L fuel i) y.length := by
  intro fuel
  induction fuel with
  | zero =>
    intro i hf hi
    show ChainFrom i [] y.length
    show i = y.length
    omega
  | succ fuel ih =>
    intro i hf hi
    by_cases h : i < y.length
    · simp only [initLoopF, if_pos h]
      exact ⟨rfl, ih (min (i + L - 1) (y.length - 1) + 1) (by omega) (by omega)⟩
    · simp only [initLoopF, if_neg h]
      show i = y.length
      omega

theorem initLoopF_good (y : List ℚ) (L : ℕ) (hL : 1 ≤ L) :
    ∀ fuel i s, s ∈ initLoopF y L fuel i → GoodSeg y s := by
  intro fuel
  induction fuel with
  | zero => intro i s hs; exact absurd hs (by simp [initLoopF])
  | succ fuel ih =>
    intro i s hs
    by_cases h : i < y.length
    · simp only [initLoopF, if_pos h, List.mem_cons] at hs
      rcases hs with hs | hs
      · subst hs
        refine ⟨?_, rfl, rfl⟩
        show i ≤ min (i + L - 1) (y.length - 1)
        omega
      · exact ih _ _ hs
    · simp only [initLoopF, if_neg h] at hs
      exact absurd hs (by simp)

theorem initLoopF_proj (y : List ℚ) (L : ℕ) (hL : 1 ≤ L) :
    ∀ fuel i, y.length - i ≤ fuel →
      (initLoopF y L fuel i).map (fun s => (s.start, s.stop)) =
        (List.range ((y.length - i + L - 1) / L)).map
          (fun t => (i + t * L, min (i + t * L + L - 1) (y.length - 1))) := by
  intro fuel
  induction fuel with
  | zero =>
    intro i hf
    have hc : (y.length - i + L - 1) / L = 0 := Nat.div_eq_of_lt (by omega)
    rw [hc]
    rw [initLoopF_nil y L 0 i (by omega)]
    rfl
  | succ fuel ih =>
    intro i hf
    by_cases h : i < y.length
    · by_cases hc : i + L ≤ y.length
      · -- interior chunk of length exactly L
        have hj : min (i + L - 1) (y.length - 1) = i + L - 1 := by omega
        have hcount : (y.length - i + L - 1) / L = (y.length - (i + L) + L - 1) / L + 1 := by
          have e1 : y.length - i + L - 1 = (y.length - (i + L) + L - 1) + L := by omega
          rw [e1, Nat.add_div_right _ (by omega)]
        simp only [initLoopF, if_pos h, List.map_cons]
        rw [hj, hcount, List.range_succ_eq_map, List.map_cons, List.map_map]
        have hfst : ((mkInitSeg y i (i + L - 1)).start, (mkInitSeg y i (i + L - 1)).stop) =
            (i + 0 * L, min (i + 0 * L + L - 1) (y.length - 1)) := by
          simp only [mkInitSeg, Prod.mk.injEq]
          omega
        rw [hfst]
        congr 1
        rw [show i + L - 1 + 1 = i + L by omega]
        rw [ih (i + L) (by omega)]
        apply List.map_congr_left
        intro t _
        simp only [Function.comp_apply, Prod.mk.injEq, Nat.succ_eq_add_one, add_mul, one_mul]
        omega
      · -- final chunk, shorter than L, ending at y.length - 1
        have hj : min (i + L - 1) (y.length - 1) = y.length - 1 := by omega
        have hcount : (y.length - i + L - 1) / L = 1 :=
          Nat.div_eq_of_lt_le (by omega) (by omega)
        simp only [initLoopF, if_pos h, List.map_cons]
        rw [hj, hcount]
        rw [initLoopF_nil y L fuel (y.length - 1 + 1) (by omega)]
        have hone : (List.range 1).map
            (fun t => (i + t * L, min (i + t * L + L - 1) (y.length - 1))) =
            [(i, y.length - 1)] := by
          rw [show List.range 1 = [0] from rfl, List.map_cons, List.map_nil]
          simp only [List.cons.injEq, Prod.mk.injEq, and_true]
          exact ⟨by omega, by omega⟩
        rw [hone]
        rfl
    · have hc : (y.length - i + L - 1) / L = 0 := Nat.div_eq_of_lt (by omega)
      rw [hc, initLoopF_nil y L (fuel + 1) i (by omega)]
      rfl

/-! ## Chain bookkeeping -/

theorem chainFrom_ne_nil {i m : ℕ} {segs : List Seg}
    (h : ChainFrom i segs m) (hne : i ≠ m) : segs ≠ [] := by
  cases segs with
  | nil => exact absurd h hne
  | cons s rest => exact List.cons_ne_nil s rest

theorem chainFrom_getLast :
    ∀ (segs : List Seg) (i m : ℕ), ChainFrom i segs m →
      ∀ h : segs ≠ [], (segs.getLast h).stop + 1 = m := by
  intro segs
  induction segs with
  | nil => intro i m _ hne; exact absurd rfl hne
  | cons s rest ih =>
    intro i m h hne
    cases rest with
    | nil => exact h.2
    | cons t rest' =>
      rw [List.getLast_cons (List.cons_ne_nil t rest')]
      exact ih _ _ h.2 _

theorem chainFrom_adjacent :
    ∀ (segs : List Seg) (i m : ℕ), ChainFrom i segs m →
      ∀ j (h : j + 1 < segs.length),
        (segs.get ⟨j + 1, h⟩).start = (segs.get ⟨j, Nat.lt_of_succ_lt h⟩).stop + 1 := by
  intro segs
  induction segs with
  | nil => intro i m _ j h; exact absurd h (by simp)
  | cons s rest ih =>
    intro i m hc j h
    cases rest with
    | nil => simp at h
    | cons t rest' =>
      cases j with
      | zero => exact hc.2.1
      | succ j' => exact ih _ _ hc.2 j' (by simpa using h)

theorem chainFrom_pair_adjacent :
    ∀ (pre : List Seg) (i m : ℕ) (s1 s2 : Seg) (post : List Seg),
      ChainFrom i (pre ++ s1 :: s2 :: post) m → s2.start = s1.stop + 1 := by
  intro pre
  induction pre with
  | nil => intro i m s1 s2 post h; exact h.2.1
  | cons p pre' ih => intro i m s1 s2 post h; exact ih _ _ _ _ _ h.2

theorem chainFrom_merge :
    ∀ (pre : List Seg) (i m : ℕ) (s1 s2 : Seg) (post : List Seg),
      ChainFrom i (pre ++ s1 :: s2 :: post) m →
      ChainFrom i (pre ++ mergeSeg s1 s2 :: post) m := by
  intro pre
  induction pre with
  | nil => intro i m s1 s2 post h; exact ⟨h.1, h.2.2⟩
  | cons p pre' ih => intro i m s1 s2 post h; exact ⟨h.1, ih _ _ _ _ _ h.2⟩

theorem goodSeg_merge (y : List ℚ) (s1 s2 : Seg) (h1 : GoodSeg y s1) (h2 : GoodSeg y s2)
    (hadj : s2.start = s1.stop + 1) : GoodSeg y (mergeSeg s1 s2) := by
  have ha := h1.1
  have hb := h2.1
  refine ⟨?_, ?_, rfl⟩
  · show s1.start ≤ s2.stop
    omega
  · show addStats s1.stats s2.stats = rangeStats y s1.start s2.stop
    rw [h1.2.1, h2.2.1, hadj]
    exact rangeStats_split y s1.start s1.stop s2.stop (by omega) (by omega)

/-! ## The best-pair scan -/

theorem deltaCost_shift (lam : ℚ) (s1 s2 : Seg) :
    deltaCost lam s1 s2 = deltaCost 0 s1 s2 - lam := by
  simp [deltaCost]

theorem findBestAux_none (lam : ℚ) :
    ∀ (segs : List Seg) (best : Option (ℚ × ℕ × Seg)) (i : ℕ),
      findBestAux lam best i segs = none ↔ (best = none ∧ segs.length < 2) := by
  intro segs
  induction segs with
  | nil => intro best i; simp [findBestAux]
  | cons s1 tl ih =>
    intro best i
    cases tl with
    | nil => simp [findBestAux]
    | cons s2 rest =>
      cases best with
      | none =>
        simp only [findBestAux]
        rw [ih]
        simp
      | some b =>
        simp only [findBestAux]
        by_cases hlt : deltaCost lam s1 s2 < b.1 <;>
          simp only [hlt, ite_true, ite_false] <;> rw [ih] <;> simp

theorem findBestAux_spec (lam : ℚ) :
    ∀ (segs : List Seg) (best : Option (ℚ × ℕ × Seg)) (i : ℕ) (r : ℚ × ℕ × Seg),
      findBestAux lam best i segs = some r →
      best = some r ∨
        ∃ pre s1 s2 post, segs = pre ++ s1 :: s2 :: post ∧ r.2.1 = i + pre.length ∧
          r.2.2 = mergeSeg s1 s2 ∧ r.1 = deltaCost lam s1 s2 := by
  intro segs
  induction segs with
  | nil => intro best i r h; exact Or.inl h
  | cons s1 tl ih =>
    intro best i r h
    cases tl with
    | nil => exact Or.inl h
    | cons s2 rest =>
      have step :
          findBestAux lam (some (deltaCost lam s1 s2, i, mergeSeg s1 s2)) (i + 1)
              (s2 :: rest) = some r →
          best = some r ∨
            ∃ pre t1 t2 post, s1 :: s2 :: rest = pre ++ t1 :: t2 :: post ∧
              r.2.1 = i + pre.length ∧ r.2.2 = mergeSeg t1 t2 ∧ r.1 = deltaCost lam t1 t2 := by
        intro hrec
        rcases ih _ (i + 1) r hrec with hb | ⟨pre, t1, t2, post, h1, h2, h3, h4⟩
        · right
          cases hb
          exact ⟨[], s1, s2, rest, rfl, by simp, rfl, rfl⟩
        · right
          refine ⟨s1 :: pre, t1, t2, post, by rw [h1]; rfl, ?_, h3, h4⟩
          simp only [List.length_cons]
          omega
      cases best with
      | none =>
        simp only [findBestAux] at h
        exact step h
      | some b =>
        simp only [findBestAux] at h
        by_cases hlt : deltaCost lam s1 s2 < b.1
        · rw [if_pos hlt] at h
          exact step h
        · rw [if_neg hlt] at h
          rcases ih _ (i + 1) r h with hb | ⟨pre, t1, t2, post, h1, h2, h3, h4⟩
          · exact Or.inl hb
          · right
            refine ⟨s1 :: pre, t1, t2, post, by rw [h1]; rfl, ?_, h3, h4⟩
            simp only [List.length_cons]
            omega

theorem findBestAux_min (lam : ℚ) :
    ∀ (segs : List Seg) (best : Option (ℚ × ℕ × Seg)) (i : ℕ) (r : ℚ × ℕ × Seg),
      findBestAux lam best i segs = some r →
      (∀ b, best = some b → r.1 ≤ b.1) ∧
      (∀ j (h : j + 1 < segs.length),
        r.1 ≤ deltaCost lam (segs.get ⟨j, Nat.lt_of_succ_lt h⟩) (segs.get ⟨j + 1, h⟩)) := by
  intro segs
  induction segs with
  | nil =>
    intro best i r h
    refine ⟨fun b hb => ?_, fun j hj => absurd hj (by simp)⟩
    rw [hb] at h
    cases h
    exact le_refl _
  | cons s1 tl ih =>
    intro best i r h
    cases tl with
    | nil =>
      refine ⟨fun b hb => ?_, fun j hj => absurd hj (by simp)⟩
      rw [hb] at h
      cases h
      exact le_refl _
    | cons s2 rest =>
      cases best with
      | none =>
        simp only [findBestAux] at h
        obtain ⟨hbest, hpairs⟩ := ih _ (i + 1) r h
        refine ⟨fun b hb => Option.noConfusion hb, fun j hj => ?_⟩
        cases j with
        | zero => exact hbest _ rfl
        | succ j' => exact hpairs j' (by simpa using hj)
      | some b0 =>
        simp only [findBestAux] at h
        by_cases hlt : deltaCost lam s1 s2 < b0.1
        · rw [if_pos hlt] at h
          obtain ⟨hbest, hpairs⟩ := ih _ (i + 1) r h
          refine ⟨fun b hb => ?_, fun j hj => ?_⟩
          · cases hb
            exact le_of_lt (lt_of_le_of_lt (hbest _ rfl) hlt)
          · cases j with
            | zero => exact hbest _ rfl
            | succ j' => exact hpairs j' (by simpa using hj)
        · rw [if_neg hlt] at h
          obtain ⟨hbest, hpairs⟩ := ih _ (i + 1) r h
          refine ⟨fun b hb => ?_, fun j hj => ?_⟩
          · cases hb
            exact hbest _ rfl
          · cases j with
            | zero => exact le_trans (hbest _ rfl) (not_lt.mp hlt)
            | succ j' => exact hpairs j' (by simpa using hj)

theorem findBestAux_shift (lam : ℚ) :
    ∀ (segs : List Seg) (best : Option (ℚ × ℕ × Seg)) (i : ℕ),
      findBestAux lam (shiftB lam best) i segs = shiftB lam (findBestAux 0 best i segs) := by
  intro segs
  induction segs with
  | nil => intro best i; rfl
  | cons s1 tl ih =>
    intro best i
    cases tl with
    | nil => rfl
    | cons s2 rest =>
      have hcand : (some (deltaCost lam s1 s2, i, mergeSeg s1 s2) : Option (ℚ × ℕ × Seg)) =
          shiftB lam (some (deltaCost 0 s1 s2, i, mergeSeg s1 s2)) := by
        rw [deltaCost_shift]
        rfl
      cases best with
      | none =>
        show findBestAux lam
            (match (none : Option (ℚ × ℕ × Seg)) with
             | none => some (deltaCost lam s1 s2, i, mergeSeg s1 s2)
             | some b => if deltaCost lam s1 s2 < b.1 then
                 some (deltaCost lam s1 s2, i, mergeSeg s1 s2) else none)
            (i + 1) (s2 :: rest) = _
        rw [show (match (none : Option (ℚ × ℕ × Seg)) with
             | none => some (deltaCost lam s1 s2, i, mergeSeg s1 s2)
             | some b => if deltaCost lam s1 s2 < b.1 then
                 some (deltaCost lam s1 s2, i, mergeSeg s1 s2) else none) =
            some (deltaCost lam s1 s2, i, mergeSeg s1 s2) from rfl]
        rw [hcand, ih _ (i + 1)]
        simp only [findBestAux]
      | some b =>
        have hiff : (deltaCost lam s1 s2 < b.1 - lam) ↔ (deltaCost 0 s1 s2 < b.1) := by
          rw [deltaCost_shift]
          exact sub_lt_sub_iff_right lam
        show findBestAux lam
            (if deltaCost lam s1 s2 < b.1 - lam then
              some (deltaCost lam s1 s2, i, mergeSeg s1 s2)
             else some (b.1 - lam, b.2))
            (i + 1) (s2 :: rest) = _
        by_cases hc : deltaCost 0 s1 s2 < b.1
        · rw [if_pos (hiff.mpr hc), hcand, ih _ (i + 1)]
          simp only [findBestAux, hc, ite_true]
        · rw [if_neg (fun hn => hc (hiff.mp hn))]
          rw [show (some (b.1 - lam, b.2) : Option (ℚ × ℕ × Seg)) = shiftB lam (some b) from rfl]
          rw [ih _ (i + 1)]
          simp only [findBestAux, hc, ite_false]

theorem findBest_none_iff (lam : ℚ) (segs : List Seg) :
    findBest lam segs = none ↔ segs.length < 2 := by
  unfold findBest
  rw [findBestAux_none]
  simp

theorem findBest_spec (lam : ℚ) (segs : List Seg) (dc : ℚ) (idx : ℕ) (m : Seg)
    (h : findBest lam segs = some (dc, idx, m)) :
    ∃ pre s1 s2 post, segs = pre ++ s1 :: s2 :: post ∧ idx = pre.length ∧
      m = mergeSeg s1 s2 ∧ dc = deltaCost lam s1 s2 := by
  rcases findBestAux_spec lam segs none 0 (dc, idx, m) h with hb | ⟨pre, s1, s2, post, h1, h2, h3, h4⟩
  · cases hb
  · exact ⟨pre, s1, s2, post, h1, by simpa using h2, h3, h4⟩

theorem findBest_min (lam : ℚ) (segs : List Seg) (dc : ℚ) (idx : ℕ) (m : Seg)
    (h : findBest lam segs = some (dc, idx, m)) :
    ∀ j (hj : j + 1 < segs.length),
      dc ≤ deltaCost lam (segs.get ⟨j, Nat.lt_of_succ_lt hj⟩) (segs.get ⟨j + 1, hj⟩) :=
  (findBestAux_min lam segs none 0 (dc, idx, m) h).2

theorem findBest_shift (lam : ℚ) (segs : List Seg) :
    findBest lam segs = shiftB lam (findBest 0 segs) :=
  findBestAux_shift lam segs none 0

/-! ## The merge loop -/

theorem mergeAt_append (pre : List Seg) (m s1 s2 : Seg) (post : List Seg) :
    mergeAt pre.length m (pre ++ s1 :: s2 :: post) = pre ++ m :: post := by
  unfold mergeAt
  congr 1
  · exact List.take_left pre (s1 :: s2 :: post)
  · congr 1
    have h2 : pre.length + 2 = pre.length + 2 := rfl
    calc (pre ++ s1 :: s2 :: post).drop (pre.length + 2)
        = ((pre ++ [s1, s2]) ++ post).drop (pre ++ [s1, s2]).length := by
          simp
      _ = post := List.drop_left _ _

theorem mergeLoopF_step_merge (lam : ℚ) (fuel : ℕ) (segs : List Seg)
    (dc : ℚ) (idx : ℕ) (m : Seg)
    (hfb : findBest lam segs = some (dc, idx, m)) (hdc : dc < 0) :
    mergeLoopF lam (fuel + 1) segs = mergeLoopF lam fuel (mergeAt idx m segs) := by
  simp only [mergeLoopF, hfb, if_pos hdc]

theorem mergeLoopF_step_stop (lam : ℚ) (fuel : ℕ) (segs : List Seg)
    (dc : ℚ) (idx : ℕ) (m : Seg)
    (hfb : findBest lam segs = some (dc, idx, m)) (hdc : 0 ≤ dc) :
    mergeLoopF lam (fuel + 1) segs = segs := by
  simp only [mergeLoopF, hfb, if_neg (not_lt.mpr hdc)]

theorem mergeLoopF_step_none (lam : ℚ) (fuel : ℕ) (segs : List Seg)
    (hfb : findBest lam segs = none) :
    mergeLoopF lam fuel segs = segs := by
  cases fuel with
  | zero => rfl
  | succ fuel => simp only [mergeLoopF, hfb]

theorem mergeLoopF_length_le (lam : ℚ) :
    ∀ (fuel : ℕ) (segs : List Seg), (mergeLoopF lam fuel segs).length ≤ segs.length := by
  intro fuel
  induction fuel with
  | zero => intro segs; exact le_refl _
  | succ fuel ih =>
    intro segs
    cases hfb : findBest lam segs with
    | none => rw [mergeLoopF_step_none lam _ segs hfb]
    | some r =>
      obtain ⟨dc, idx, m⟩ := r
      by_cases hdc : dc < 0
      · rw [mergeLoopF_step_merge lam fuel segs dc idx m hfb hdc]
        obtain ⟨pre, s1, s2, post, hseg, hidx, hm, _⟩ := findBest_spec lam segs dc idx m hfb
        calc (mergeLoopF lam fuel (mergeAt idx m segs)).length
            ≤ (mergeAt idx m segs).length := ih _
          _ ≤ segs.length := by
              rw [hseg, hidx, mergeAt_append]
              simp
      · rw [mergeLoopF_step_stop lam fuel segs dc idx m hfb (not_lt.mp hdc)]

theorem mergeLoopF_chain (lam : ℚ) (n : ℕ) :
    ∀ (fuel : ℕ) (segs : List Seg) (i : ℕ),
      ChainFrom i segs n → ChainFrom i (mergeLoopF lam fuel segs) n := by
  intro fuel
  induction fuel with
  | zero => intro segs i h; exact h
  | succ fuel ih =>
    intro segs i h
    cases hfb : findBest lam segs with
    | none => rw [mergeLoopF_step_none lam _ segs hfb]; exact h
    | some r =>
      obtain ⟨dc, idx, m⟩ := r
      by_cases hdc : dc < 0
      · rw [mergeLoopF_step_merge lam fuel segs dc idx m hfb hdc]
        obtain ⟨pre, s1, s2, post, hseg, hidx, hm, _⟩ := findBest_spec lam segs dc idx m hfb
        refine ih _ i ?_
        rw [hidx, hm, hseg]
        rw [hseg] at h
        rw [mergeAt_append]
        exact chainFrom_merge pre i n s1 s2 post h
      · rw [mergeLoopF_step_stop lam fuel segs dc idx m hfb (not_lt.mp hdc)]
        exact h

theorem mergeLoopF_stop (lam : ℚ) :
    ∀ (fuel : ℕ) (segs : List Seg), segs.length ≤ fuel →
      (mergeLoopF lam fuel segs).length < 2 ∨
      ∀ j (hj : j + 1 < (mergeLoopF lam fuel segs).length),
        0 ≤ deltaCost lam ((mergeLoopF lam fuel segs).get ⟨j, Nat.lt_of_succ_lt hj⟩)
          ((mergeLoopF lam fuel segs).get ⟨j + 1, hj⟩) := by
  intro fuel
  induction fuel with
  | zero =>
    intro segs hlen
    left
    have : segs.length = 0 := by omega
    simpa [mergeLoopF] using by omega
  | succ fuel ih =>
    intro segs hlen
    cases hfb : findBest lam segs with
    | none =>
      left
      rw [mergeLoopF_step_none lam _ segs hfb]
      exact (findBest_none_iff lam segs).mp hfb
    | some r =>
      obtain ⟨dc, idx, m⟩ := r
      by_cases hdc : dc < 0
      · rw [mergeLoopF_step_merge lam fuel segs dc idx m hfb hdc]
        obtain ⟨pre, s1, s2, post, hseg, hidx, hm, _⟩ := findBest_spec lam segs dc idx m hfb
        refine ih _ ?_
        have : (mergeAt idx m segs).length + 1 = segs.length := by
          rw [hseg, hidx, mergeAt_append]
          simp
          omega
        omega
      · rw [mergeLoopF_step_stop lam fuel segs dc idx m hfb (not_lt.mp hdc)]
        right
        intro j hj
        exact le_trans (not_lt.mp hdc) (findBest_min lam segs dc idx m hfb j hj)

theorem mergeLoopF_mono (lam1 lam2 : ℚ) (h12 : lam1 ≤ lam2) :
    ∀ (fuel : ℕ) (segs : List Seg),
      (mergeLoopF lam2 fuel segs).length ≤ (mergeLoopF lam1 fuel segs).length := by
  intro fuel
  induction fuel with
  | zero => intro segs; exact le_refl _
  | succ fuel ih =>
    intro segs
    cases hfb0 : findBest 0 segs with
    | none =>
      have h1 : findBest lam1 segs = none := by rw [findBest_shift, hfb0]; rfl
      have h2 : findBest lam2 segs = none := by rw [findBest_shift, hfb0]; rfl
      rw [mergeLoopF_step_none lam1 _ segs h1, mergeLoopF_step_none lam2 _ segs h2]
    | some r =>
      obtain ⟨c, idx, m⟩ := r
      have h1 : findBest lam1 segs = some (c - lam1, idx, m) := by
        rw [findBest_shift, hfb0]; rfl
      have h2 : findBest lam2 segs = some (c - lam2, idx, m) := by
        rw [findBest_shift, hfb0]; rfl
      by_cases hc1 : c - lam1 < 0
      · have hc2 : c - lam2 < 0 := lt_of_le_of_lt (sub_le_sub_left h12 c) hc1
        rw [mergeLoopF_step_merge lam1 fuel segs _ idx m h1 hc1,
          mergeLoopF_step_merge lam2 fuel segs _ idx m h2 hc2]
        exact ih _
      · by_cases hc2 : c - lam2 < 0
        · rw [mergeLoopF_step_stop lam1 fuel segs _ idx m h1 (not_lt.mp hc1),
            mergeLoopF_step_merge lam2 fuel segs _ idx m h2 hc2]
          obtain ⟨pre, s1, s2, post, hseg, hidx, hm, _⟩ := findBest_spec lam2 segs _ idx m h2
          calc (mergeLoopF lam2 fuel (mergeAt idx m segs)).length
              ≤ (mergeAt idx m segs).length := mergeLoopF_length_le lam2 fuel _
            _ ≤ segs.length := by
                rw [hseg, hidx, mergeAt_append]
                simp
        · rw [mergeLoopF_step_stop lam1 fuel segs _ idx m h1 (not_lt.mp hc1),
            mergeLoopF_step_stop lam2 fuel segs _ idx m h2 (not_lt.mp hc2)]

theorem mergeLoopF_fuel (lam : ℚ) :
    ∀ (fuel fuel' : ℕ) (segs : List Seg), segs.length ≤ fuel + 1 → segs.length ≤ fuel' + 1 →
      mergeLoopF lam fuel segs = mergeLoopF lam fuel' segs := by
  intro fuel
  induction fuel with
  | zero =>
    intro fuel' segs h1 h2
    have hfb : findBest lam segs = none := (findBest_none_iff _ _).mpr (by omega)
    rw [mergeLoopF_step_none lam _ segs hfb, mergeLoopF_step_none lam _ segs hfb]
  | succ fuel ih =>
    intro fuel' segs h1 h2
    cases fuel' with
    | zero =>
      have hfb : findBest lam segs = none := (findBest_none_iff _ _).mpr (by omega)
      rw [mergeLoopF_step_none lam _ segs hfb, mergeLoopF_step_none lam _ segs hfb]
    | succ f' =>
      cases hfb : findBest lam segs with
      | none => rw [mergeLoopF_step_none lam _ segs hfb, mergeLoopF_step_none lam _ segs hfb]
      | some r =>
        obtain ⟨dc, idx, m⟩ := r
        by_cases hdc : dc < 0
        · rw [mergeLoopF_step_merge lam fuel segs dc idx m hfb hdc,
            mergeLoopF_step_merge lam f' segs dc idx m hfb hdc]
          obtain ⟨pre, s1, s2, post, hseg, hidx, hm, _⟩ := findBest_spec lam segs dc idx m hfb
          have hlen : (mergeAt idx m segs).length + 1 = segs.length := by
            rw [hseg, hidx, mergeAt_append]
            simp
            omega
          exact ih f' _ (by omega) (by omega)
        · rw [mergeLoopF_step_stop lam fuel segs dc idx m hfb (not_lt.mp hdc),
            mergeLoopF_step_stop lam f' segs dc idx m hfb (not_lt.mp hdc)]

theorem chainFrom_head_start {i m : ℕ} {segs : List Seg} (h : ChainFrom i segs m)
    (hne : segs ≠ []) : (segs.head hne).start = i := by
  cases segs with
  | nil => exact absurd rfl hne
  | cons s rest => exact h.1

/-! ## Claims about the segmentation engine -/

/-- C1: for every series of length `N ≥ 1`, `min_length ≥ 1` and `λ ≥ 0`,
the list returned by `bottom_up_segmentation` covers `[0, N-1]` contiguously:
the first segment has `x1 = 0`, the last has `x2 = N - 1`, and each later
segment starts at the previous segment's `x2 + 1`. -/
theorem claim_C1 (y : List ℚ) (L : ℕ) (lam : ℚ)
    (hN : 1 ≤ y.length) (hL : 1 ≤ L) (hlam : 0 ≤ lam) :
    bottom_up_segmentation y L lam ≠ [] ∧
    (∀ h : bottom_up_segmentation y L lam ≠ [],
      ((bottom_up_segmentation y L lam).head h).x1 = 0 ∧
      ((bottom_up_segmentation y L lam).getLast h).x2 = y.length - 1) ∧
    (∀ j (hj : j + 1 < (bottom_up_segmentation y L lam).length),
      ((bottom_up_segmentation y L lam).get ⟨j + 1, hj⟩).x1 =
        ((bottom_up_segmentation y L lam).get ⟨j, Nat.lt_of_succ_lt hj⟩).x2 + 1) := by
  have hchain0 : ChainFrom 0 (initSegments y L) y.length :=
    initLoopF_chain y L hL y.length 0 (by omega) (by omega)
  have hchain : ChainFrom 0
      (mergeLoopF lam (initSegments y L).length (initSegments y L)) y.length :=
    mergeLoopF_chain lam y.length _ _ 0 hchain0
  have hne : mergeLoopF lam (initSegments y L).length (initSegments y L) ≠ [] :=
    chainFrom_ne_nil hchain (by omega)
  refine ⟨?_, ?_, ?_⟩
  · show (mergeLoopF lam (initSegments y L).length (initSegments y L)).map
      (finalSeg lam) ≠ []
    simp only [ne_eq, List.map_eq_nil]
    exact hne
  · intro h
    have h' : (mergeLoopF lam (initSegments y L).length (initSegments y L)).map
        (finalSeg lam) ≠ [] := h
    constructor
    · show (((mergeLoopF lam (initSegments y L).length (initSegments y L)).map
        (finalSeg lam)).head h').x1 = 0
      rw [List.head_map]
      exact chainFrom_head_start hchain _
    · show (((mergeLoopF lam (initSegments y L).length (initSegments y L)).map
        (finalSeg lam)).getLast h').x2 = y.length - 1
      rw [List.getLast_map]
      have hlast := chainFrom_getLast _ _ _ hchain hne
      show ((mergeLoopF lam (initSegments y L).length (initSegments y L)).getLast hne).stop =
        y.length - 1
      omega
  · intro j hj
    have hj' : j + 1 < ((mergeLoopF lam (initSegments y L).length
        (initSegments y L)).map (finalSeg lam)).length := hj
    show ((((mergeLoopF lam (initSegments y L).length (initSegments y L)).map
        (finalSeg lam)).get ⟨j + 1, hj'⟩)).x1 =
      ((((mergeLoopF lam (initSegments y L).length (initSegments y L)).map
        (finalSeg lam)).get ⟨j, Nat.lt_of_succ_lt hj'⟩)).x2 + 1
    rw [List.get_map, List.get_map]
    exact chainFrom_adjacent _ _ _ hchain j (by simpa using hj')

/-- Witness for C1 on the concrete two-slope series with `L = 2`, `λ = 1/100`. -/
theorem claim_C1_witness :
    (1 ≤ ([0, 1, 2, 3, 4, 10, 9, 8, 7, 6] : List ℚ).length ∧ 1 ≤ 2 ∧ (0 : ℚ) ≤ 1 / 100) ∧
    bottom_up_segmentation [0, 1, 2, 3, 4, 10, 9, 8, 7, 6] 2 (1 / 100) ≠ [] :=
  ⟨⟨by decide, by decide, by norm_num⟩,
    (claim_C1 [0, 1, 2, 3, 4, 10, 9, 8, 7, 6] 2 (1 / 100)
      (by decide) (by decide) (by norm_num)).1⟩

/-- C3 (counterexample): the claim says the final chunk of the initial
partition absorbs the remainder (so that a series of length 7 with `L = 3`
gets `floor(7/3) = 2` initial chunks, the second being `[3, 6]`); the code
instead emits 3 chunks `[0,2], [3,5], [6,6]`, never extending the last one. -/
theorem claim_C3_cex :
    (initSegments (List.replicate 7 (0 : ℚ)) 3).map (fun s => (s.start, s.stop)) =
      [(0, 2), (3, 5), (6, 6)] ∧
    (initSegments (List.replicate 7 (0 : ℚ)) 3).length = 3 ∧
    (7 : ℕ) / 3 = 2 ∧ (3 : ℕ) ≠ 2 := by
  refine ⟨by decide, ?_, by decide, by decide⟩
  have h : ((initSegments (List.replicate 7 (0 : ℚ)) 3).map
      (fun s => (s.start, s.stop))).length = 3 := by decide
  simpa using h

/-- C3 (amended): the initial partition consists of `ceil(N/L)` consecutive
chunks — chunk `t` is `[tL, min(tL + L - 1, N - 1)]` — so every chunk has
length exactly `L` except the final one, which ends at `N - 1` and keeps its
short remainder length (between 1 and `L`), never being extended. -/
theorem claim_C3 (y : List ℚ) (L : ℕ) (hL : 1 ≤ L) :
    (initSegments y L).map (fun s => (s.start, s.stop)) =
      (List.range ((y.length + L - 1) / L)).map
        (fun t => (t * L, min (t * L + L - 1) (y.length - 1))) := by
  have h := initLoopF_proj y L hL y.length 0 (by omega)
  simpa using h

/-- Witness for C3 (amended) on a series of length 7 with `L = 3`. -/
theorem claim_C3_witness :
    (1 ≤ 3) ∧
    (initSegments (List.replicate 7 (1 : ℚ)) 3).map (fun s => (s.start, s.stop)) =
      (List.range ((7 + 3 - 1) / 3)).map
        (fun t => (t * 3, min (t * 3 + 3 - 1) (7 - 1))) :=
  ⟨by decide, claim_C3 (List.replicate 7 (1 : ℚ)) 3 (by decide)⟩

/-- C4: with the series and minimum length fixed, a larger penalty never
yields more output segments. -/
theorem claim_C4 (y : List ℚ) (L : ℕ) (lam1 lam2 : ℚ) (h : lam1 ≤ lam2) :
    (bottom_up_segmentation y L lam2).length ≤ (bottom_up_segmentation y L lam1).length := by
  have hbu : ∀ lam : ℚ, (bottom_up_segmentation y L lam).length =
      (mergeLoopF lam (initSegments y L).length (initSegments y L)).length := by
    intro lam
    show ((mergeLoopF lam (initSegments y L).length (initSegments y L)).map
      (finalSeg lam)).length = _
    rw [List.length_map]
  rw [hbu lam1, hbu lam2]
  exact mergeLoopF_mono lam1 lam2 h _ _

/-- Witness for C4 on the two-slope series: `λ = 1/100` keeps 3 segments,
`λ = 25/2` merges down to 2. -/
theorem claim_C4_witness :
    ((1 / 100 : ℚ) ≤ 25 / 2) ∧
    (bottom_up_segmentation [0, 1, 2, 3, 4, 10, 9, 8, 7, 6] 2 (25 / 2)).length ≤
      (bottom_up_segmentation [0, 1, 2, 3, 4, 10, 9, 8, 7, 6] 2 (1 / 100)).length :=
  ⟨by norm_num, claim_C4 [0, 1, 2, 3, 4, 10, 9, 8, 7, 6] 2 (1 / 100) (25 / 2) (by norm_num)⟩

/-- C5: aggregate statistics tuples are additive under splitting a range at
any interior point `k`, and the merge step combines two segments' tuples by
exactly this element-wise addition. -/
theorem claim_C5 (y : List ℚ) (k : ℕ) (h : k + 1 < y.length) :
    addStats (rangeStats y 0 k) (rangeStats y (k + 1) (y.length - 1)) =
      rangeStats y 0 (y.length - 1) ∧
    ∀ s1 s2 : Seg, (mergeSeg s1 s2).stats = addStats s1.stats s2.stats :=
  ⟨rangeStats_split y 0 k (y.length - 1) (by omega) (by omega), fun _ _ => rfl⟩

/-- Witness for C5 on `y = [1, 2, 4]`, split point `k = 0`. -/
theorem claim_C5_witness :
    (0 + 1 < ([1, 2, 4] : List ℚ).length) ∧
    (addStats (rangeStats [1, 2, 4] 0 0) (rangeStats [1, 2, 4] 1 2) =
        rangeStats [1, 2, 4] 0 2 ∧
      ∀ s1 s2 : Seg, (mergeSeg s1 s2).stats = addStats s1.stats s2.stats) :=
  ⟨by decide, claim_C5 [1, 2, 4] 0 (by decide)⟩

/-- C6: `_compute_ab` is total for `n ≥ 1`: when `|det| < 1e-10` it returns
slope `0` and intercept `sum_y / n` without dividing by the determinant, and
it divides by the determinant only when `|det| ≥ 1e-10`. -/
theorem claim_C6 (st : Stats) (hn : 1 ≤ st.n) :
    (|(st.n : ℚ) * st.sx2 - st.sx * st.sx| < eps →
      _compute_ab st = (0, st.sy / (st.n : ℚ))) ∧
    (eps ≤ |(st.n : ℚ) * st.sx2 - st.sx * st.sx| →
      _compute_ab st =
        (((st.n : ℚ) * st.sxy - st.sx * st.sy) / ((st.n : ℚ) * st.sx2 - st.sx * st.sx),
         (st.sy - ((st.n : ℚ) * st.sxy - st.sx * st.sy) /
             ((st.n : ℚ) * st.sx2 - st.sx * st.sx) * st.sx) / (st.n : ℚ))) := by
  constructor
  · intro h
    simp only [_compute_ab, if_pos h]
  · intro h
    simp only [_compute_ab, if_neg (not_lt.mpr h)]

/-- Witness for C6: the single-point tuple `(1, 0, 5, 0, 0, 25)` has
determinant `0`, so the fallback returns slope `0` and intercept `5`. -/
theorem claim_C6_witness :
    (1 ≤ (⟨1, 0, 5, 0, 0, 25⟩ : Stats).n) ∧
    |((⟨1, 0, 5, 0, 0, 25⟩ : Stats).n : ℚ) * (⟨1, 0, 5, 0, 0, 25⟩ : Stats).sx2 -
        (⟨1, 0, 5, 0, 0, 25⟩ : Stats).sx * (⟨1, 0, 5, 0, 0, 25⟩ : Stats).sx| < eps ∧
    _compute_ab ⟨1, 0, 5, 0, 0, 25⟩ =
      (0, (⟨1, 0, 5, 0, 0, 25⟩ : Stats).sy / ((⟨1, 0, 5, 0, 0, 25⟩ : Stats).n : ℚ)) :=
  ⟨by decide, by norm_num [eps],
    (claim_C6 ⟨1, 0, 5, 0, 0, 25⟩ (by decide)).1 (by norm_num [eps])⟩

/-- C7 (counterexample): the claim says that for `N ≤ 1` the variance `0` is
floored to `1e-10`, making `calculate_lambda` return `c * 1e-10`; in the code
the early `return 0.0` bypasses the floor, so `calculate_lambda` returns `0`. -/
theorem claim_C7_cex :
    calculate_lambda [] 5 VMethod.residuals = 0 ∧
    calculate_lambda [] 5 VMethod.residuals ≠ 5 * (1 / 10 ^ 10) := by
  have h0 : calculate_lambda [] 5 VMethod.residuals = 0 := by
    simp [calculate_lambda, _estimate_noise_variance]
  refine ⟨h0, ?_⟩
  rw [h0]
  norm_num

/-- C7 (amended): for every series of length `≤ 1`, every multiplier and
every method, `_estimate_noise_variance` returns `0` before ever reaching the
`1e-10` floor, so `calculate_lambda` returns `c * 0 = 0`. -/
theorem claim_C7 (y : List ℚ) (c : ℚ) (method : VMethod) (h : y.length ≤ 1) :
    calculate_lambda y c method = 0 := by
  simp [calculate_lambda, _estimate_noise_variance, h]

/-- Witness for C7 (amended) on the one-point series `[7]` with `c = 3`. -/
theorem claim_C7_witness :
    (([7] : List ℚ).length ≤ 1) ∧ calculate_lambda [7] 3 VMethod.differences = 0 :=
  ⟨by decide, claim_C7 [7] 3 VMethod.differences (by decide)⟩

/-- C2: in every iteration of the merge loop, the scan selects an adjacent
pair minimizing `delta_cost`; the `delta_cost` of an adjacent pair whose
cached statistics are those of its index ranges equals the merged range's
SSR minus the two segments' SSRs minus `λ`; a merge is performed if and
only if the minimum `delta_cost` is negative; the scan yields nothing
exactly when fewer than 2 segments remain; and in the returned segmentation
no adjacent merge would reduce total cost. -/
theorem claim_C2 (y : List ℚ) (lam : ℚ) (segs : List Seg) :
    (∀ dc idx m, findBest lam segs = some (dc, idx, m) →
      ∃ pre s1 s2 post, segs = pre ++ s1 :: s2 :: post ∧ idx = pre.length ∧
        m = mergeSeg s1 s2 ∧
        dc = (_compute_linreg (addStats s1.stats s2.stats)).1 - (s1.ssr + s2.ssr) - lam ∧
        ∀ j (hj : j + 1 < segs.length),
          dc ≤ deltaCost lam (segs.get ⟨j, Nat.lt_of_succ_lt hj⟩) (segs.get ⟨j + 1, hj⟩)) ∧
    (∀ s1 s2 : Seg,
      s1.stats = rangeStats y s1.start s1.stop →
      s2.stats = rangeStats y s2.start s2.stop →
      s2.start = s1.stop + 1 → s1.start ≤ s1.stop → s2.start ≤ s2.stop →
      deltaCost lam s1 s2 =
        (_compute_linreg (rangeStats y s1.start s2.stop)).1 - (s1.ssr + s2.ssr) - lam) ∧
    (∀ fuel dc idx m, findBest lam segs = some (dc, idx, m) → dc < 0 →
      mergeLoopF lam (fuel + 1) segs = mergeLoopF lam fuel (mergeAt idx m segs)) ∧
    (∀ fuel dc idx m, findBest lam segs = some (dc, idx, m) → 0 ≤ dc →
      mergeLoopF lam (fuel + 1) segs = segs) ∧
    (findBest lam segs = none ↔ segs.length < 2) ∧
    (∀ fuel, segs.length ≤ fuel →
      (mergeLoopF lam fuel segs).length < 2 ∨
      ∀ j (hj : j + 1 < (mergeLoopF lam fuel segs).length),
        0 ≤ deltaCost lam ((mergeLoopF lam fuel segs).get ⟨j, Nat.lt_of_succ_lt hj⟩)
          ((mergeLoopF lam fuel segs).get ⟨j + 1, hj⟩)) := by
  refine ⟨?_, ?_, ?_, ?_, findBest_none_iff lam segs, fun fuel => mergeLoopF_stop lam fuel segs⟩
  · intro dc idx m hfb
    obtain ⟨pre, s1, s2, post, h1, h2, h3, h4⟩ := findBest_spec lam segs dc idx m hfb
    exact ⟨pre, s1, s2, post, h1, h2, h3, h4, findBest_min lam segs dc idx m hfb⟩
  · intro s1 s2 hs1 hs2 hadj hw1 hw2
    show (_compute_linreg (addStats s1.stats s2.stats)).1 - (s1.ssr + s2.ssr) - lam = _
    rw [hs1, hs2, hadj,
      rangeStats_split y s1.start s1.stop s2.stop (by omega) (by omega)]
  · intro fuel dc idx m hfb hdc
    exact mergeLoopF_step_merge lam fuel segs dc idx m hfb hdc
  · intro fuel dc idx m hfb hdc
    exact mergeLoopF_step_stop lam fuel segs dc idx m hfb hdc

/-- Witness for C2: on an empty segment list the scan finds no pair. -/
theorem claim_C2_witness :
    ([] : List Seg).length < 2 ∧ findBest 0 [] = none :=
  ⟨by decide, (claim_C2 [] 0 []).2.2.2.2.1.mpr (by decide)⟩

/-- C9: the empty series yields the empty segment list for every
`min_length ≥ 1` and every `λ`, without raising. -/
theorem claim_C9 (min_length : ℕ) (lam : ℚ) (hL : 1 ≤ min_length) :
    bottom_up_segmentation [] min_length lam = [] := rfl

/-- Witness for C9 at `min_length = 3`, `λ = 1/2`. -/
theorem claim_C9_witness :
    (1 ≤ 3) ∧ bottom_up_segmentation [] 3 (1 / 2) = [] :=
  ⟨by decide, claim_C9 3 (1 / 2) (by decide)⟩

/-! ## The trend projector -/

theorem linreg_error (X Y : List ℚ) (e : TErr) (h : linreg X Y = .error e) :
    e = .divByZero := by
  simp only [linreg] at h
  split at h
  · injection h with h1
    exact h1.symm
  · exact Except.noConfusion h

theorem trendsBody_error (original : List ℚ) (e : TErr)
    (h : trendsBody original = .error e) : e = .divByZero := by
  cases hmid : linreg ((List.range original.length).map (fun i => (i : ℚ))) original with
  | error e1 =>
    simp only [trendsBody, hmid] at h
    injection h with h1
    rw [← h1]
    exact linreg_error _ _ _ hmid
  | ok midc =>
    simp only [trendsBody, hmid] at h
    by_cases hA : 1 < (aboveOf original midc).length
    · simp only [hA, ite_true] at h
      cases hmax : linreg ((aboveOf original midc).map Prod.fst)
          ((aboveOf original midc).map Prod.snd) with
      | error e2 =>
        simp only [hmax] at h
        injection h with h1
        rw [← h1]
        exact linreg_error _ _ _ hmax
      | ok maxc =>
        simp only [hmax] at h
        by_cases hB : 1 < (belowOf original midc).length
        · simp only [hB, ite_true] at h
          cases hmin : linreg ((belowOf original midc).map Prod.fst)
              ((belowOf original midc).map Prod.snd) with
          | error e3 =>
            simp only [hmin] at h
            injection h with h1
            rw [← h1]
            exact linreg_error _ _ _ hmin
          | ok minc =>
            simp only [hmin] at h
            exact Except.noConfusion h
        · simp only [hB, ite_false] at h
          exact Except.noConfusion h
    · simp only [hA, ite_false] at h
      by_cases hB : 1 < (belowOf original midc).length
      · simp only [hB, ite_true] at h
        cases hmin : linreg ((belowOf original midc).map Prod.fst)
            ((belowOf original midc).map Prod.snd) with
        | error e3 =>
          simp only [hmin] at h
          injection h with h1
          rw [← h1]
          exact linreg_error _ _ _ hmin
        | ok minc =>
          simp only [hmin] at h
          exact Except.noConfusion h
      · simp only [hB, ite_false] at h
        exact Except.noConfusion h

theorem trendsBody_ok (original : List ℚ) (midc maxc minc : ℚ × ℚ)
    (h : trendsBody original = .ok (midc, maxc, minc)) :
    (1 < (aboveOf original midc).length ∨ maxc = midc) ∧
    (1 < (belowOf original midc).length ∨ minc = midc) := by
  cases hmid : linreg ((List.range original.length).map (fun i => (i : ℚ))) original with
  | error e1 =>
    simp only [trendsBody, hmid] at h
    exact Except.noConfusion h
  | ok midc0 =>
    simp only [trendsBody, hmid] at h
    by_cases hA : 1 < (aboveOf original midc0).length
    · simp only [hA, ite_true] at h
      cases hmax : linreg ((aboveOf original midc0).map Prod.fst)
          ((aboveOf original midc0).map Prod.snd) with
      | error e2 => simp only [hmax] at h; exact Except.noConfusion h
      | ok maxc0 =>
        simp only [hmax] at h
        by_cases hB : 1 < (belowOf original midc0).length
        · simp only [hB, ite_true] at h
          cases hmin : linreg ((belowOf original midc0).map Prod.fst)
              ((belowOf original midc0).map Prod.snd) with
          | error e3 => simp only [hmin] at h; exact Except.noConfusion h
          | ok minc0 =>
            simp only [hmin] at h
            injection h with h1
            simp only [Prod.mk.injEq] at h1
            obtain ⟨e1, e2, e3⟩ := h1
            subst e1; subst e2; subst e3
            exact ⟨Or.inl hA, Or.inl hB⟩
        · simp only [hB, ite_false] at h
          injection h with h1
          simp only [Prod.mk.injEq] at h1
          obtain ⟨e1, e2, e3⟩ := h1
          subst e1; subst e2; subst e3
          exact ⟨Or.inl hA, Or.inr rfl⟩
    · simp only [hA, ite_false] at h
      by_cases hB : 1 < (belowOf original midc0).length
      · simp only [hB, ite_true] at h
        cases hmin : linreg ((belowOf original midc0).map Prod.fst)
            ((belowOf original midc0).map Prod.snd) with
        | error e3 => simp only [hmin] at h; exact Except.noConfusion h
        | ok minc0 =>
          simp only [hmin] at h
          injection h with h1
          simp only [Prod.mk.injEq] at h1
          obtain ⟨e1, e2, e3⟩ := h1
          subst e1; subst e2; subst e3
          exact ⟨Or.inr rfl, Or.inl hB⟩
      · simp only [hB, ite_false] at h
        injection h with h1
        simp only [Prod.mk.injEq] at h1
        obtain ⟨e1, e2, e3⟩ := h1
        subst e1; subst e2; subst e3
        exact ⟨Or.inr rfl, Or.inr rfl⟩

/-! ## Claims about the trend projector -/

/-- C8: `trends` raises the row-absent error when the row name is missing
from the (first entry of the) table, raises the not-enough-data error when
fewer than 7 dates are present, and when at most one point lies strictly
above (resp. below) the mid line the max (resp. min) line falls back to the
mid line's coefficients instead of raising. -/
theorem claim_C8 :
    (∀ (first : ℕ × RowMap) (rest : List (ℕ × RowMap)) (row : String) (start : Option ℕ),
      row ∉ first.2.keys → trends (first :: rest) row start = .error .rowAbsent) ∧
    (∀ (first : ℕ × RowMap) (rest : List (ℕ × RowMap)) (row : String) (start : Option ℕ),
      row ∈ first.2.keys → (first :: rest).length < 7 →
      trends (first :: rest) row start = .error .notEnoughData) ∧
    (∀ (original : List ℚ) (midc maxc minc : ℚ × ℚ),
      trendsBody original = .ok (midc, maxc, minc) →
      ((aboveOf original midc).length ≤ 1 → maxc = midc) ∧
      ((belowOf original midc).length ≤ 1 → minc = midc)) := by
  refine ⟨?_, ?_, ?_⟩
  · intro first rest row start h
    simp only [trends, if_pos h]
  · intro first rest row start hrow hlen
    simp only [trends, if_neg (not_not_intro hrow), if_pos hlen]
  · intro original midc maxc minc h
    obtain ⟨hA, hB⟩ := trendsBody_ok original midc maxc minc h
    constructor
    · intro hle
      rcases hA with hA | hA
      · omega
      · exact hA
    · intro hle
      rcases hB with hB | hB
      · omega
      · exact hB

/-- Witness for C8: a one-row table whose only row is `"v"` makes
`trends` fail with the row-absent error on `"w"`. -/
theorem claim_C8_witness :
    ("w" ∉ (((0 : ℕ), (⟨["v"], fun _ => 0⟩ : RowMap)) : ℕ × RowMap).2.keys) ∧
    trends [((0 : ℕ), (⟨["v"], fun _ => 0⟩ : RowMap))] "w" none = .error .rowAbsent :=
  ⟨by decide, claim_C8.1 ((0 : ℕ), (⟨["v"], fun _ => 0⟩ : RowMap)) [] "w" none (by decide)⟩

/-- C10: the not-enough-data error is raised exactly when the whole,
unfiltered table (with the row present) has fewer than 7 dates; the `start`
filter plays no role in this guard, so a `start` that filters out arbitrarily
many dates cannot trigger it. -/
theorem claim_C10 (d : Table) (row : String) (start : Option ℕ) :
    trends d row start = .error .notEnoughData ↔
      ∃ first rest, d = first :: rest ∧ row ∈ first.2.keys ∧ d.length < 7 := by
  cases d with
  | nil =>
    constructor
    · intro h
      injection h with h1
      exact TErr.noConfusion h1
    · rintro ⟨first, rest, heq, -, -⟩
      exact List.noConfusion heq
  | cons first rest =>
    by_cases hrow : row ∈ first.2.keys
    · by_cases hlen : (first :: rest).length < 7
      · simp only [trends, if_neg (not_not_intro hrow), if_pos hlen]
        exact ⟨fun _ => ⟨first, rest, rfl, hrow, hlen⟩, fun _ => trivial⟩
      · constructor
        · intro h
          exfalso
          simp only [trends, if_neg (not_not_intro hrow), if_neg hlen] at h
          cases hb : trendsBody
              ((filteredEntries (first :: rest) start).map (fun e => e.2.val row)) with
          | error e =>
            simp only [hb] at h
            injection h with h1
            have := trendsBody_error _ _ hb
            rw [h1] at this
            exact TErr.noConfusion this
          | ok r =>
            obtain ⟨midc, maxc, minc⟩ := r
            simp only [hb] at h
            cases hd : (filteredEntries (first :: rest) start).map Prod.fst with
            | nil =>
              simp only [hd] at h
              injection h with h1
              exact TErr.noConfusion h1
            | cons d0 drest =>
              simp only [hd] at h
              exact Except.noConfusion h
        · rintro ⟨f', r', heq, -, hlen'⟩
          cases heq
          exact absurd hlen' hlen
    · simp only [trends, if_pos hrow]
      constructor
      · intro h
        injection h with h1
        exact TErr.noConfusion h1
      · rintro ⟨f', r', heq, hrow', -⟩
        cases heq
        exact absurd hrow' hrow

/-- Witness for C10: a 5-date table raises not-enough-data even with a
`start` that would filter out every date. -/
theorem claim_C10_witness :
    trends [((0 : ℕ), (⟨["v"], fun _ => 0⟩ : RowMap)), (1, ⟨["v"], fun _ => 0⟩),
        (2, ⟨["v"], fun _ => 0⟩), (3, ⟨["v"], fun _ => 0⟩), (4, ⟨["v"], fun _ => 0⟩)]
      "v" (some 100) = .error .notEnoughData :=
  (claim_C10 [((0 : ℕ), (⟨["v"], fun _ => 0⟩ : RowMap)), (1, ⟨["v"], fun _ => 0⟩),
      (2, ⟨["v"], fun _ => 0⟩), (3, ⟨["v"], fun _ => 0⟩), (4, ⟨["v"], fun _ => 0⟩)]
    "v" (some 100)).mpr
    ⟨((0 : ℕ), (⟨["v"], fun _ => 0⟩ : RowMap)),
      [(1, ⟨["v"], fun _ => 0⟩), (2, ⟨["v"], fun _ => 0⟩), (3, ⟨["v"], fun _ => 0⟩),
        (4, ⟨["v"], fun _ => 0⟩)], rfl, by decide, by decide⟩

end Expendo
